import Mathlib

/-!
# Verification of the pcomp comparator and resampling engine

A shallow embedding, in Lean 4, of the core of the `pcomp` repository:
stochastic-language construction, the weighted Levenshtein edit distance,
the distance-matrix engine (full and symmetric), matrix projection, the
binning subsystem (outer-percentile and k-means binners), EMD invocation,
and the bootstrap / permutation-test comparison pipelines.

Modelling conventions:
* `f64` values are modelled as exact rationals (`ℚ`).  The IEEE special
  value NaN, which arises in the source only from the division `0.0 / 0.0`,
  is modelled by `Option.none` at the offending operation.
* A Rust panic (`unwrap`, index out of bounds on an absent key, ...) is
  modelled as `Option.none` of the enclosing computation.
* Randomness (the `StdRng` shuffles and the `WeightedIndex` sampler) is
  abstracted by passing the per-iteration drawn data as an explicit
  function argument; all theorems quantify over it.
* Hash-map iteration order (from `HashMap`/`HashSet` in the source) is
  unspecified in the source.  Wherever the source immediately sorts the
  result, the embedding sorts a canonical ascending list; wherever the
  order survives (the per-iteration sample languages of the permutation
  test), the embedding fixes the ascending order and the theorems proved
  depend only on order-independent quantities.
-/

namespace PComp

/-- A dense 2-D matrix of rationals with an explicit shape, modelling
`ndarray::Array2<f64>`.  `entry` is only meaningful at indices
`i < rows`, `j < cols`. -/
structure QMatrix where
  rows : ℕ
  cols : ℕ
  entry : ℕ → ℕ → ℚ

/-- Model of `StochasticLanguage<T>` (`stochastic_language.rs`): a list of
variants with a parallel vector of relative frequencies. -/
structure StochasticLanguage (T : Type) where
  variants : List T
  frequencies : List ℚ

/-- Model of `StochasticLanguage::from_items`: count the occurrences of
each distinct item, divide by the population size, and sort.  The source
counts into a hash map and then sorts the `(item, frequency)` pairs by
`partial_cmp` (lexicographic on pairs); since the keys are distinct this
equals sorting the distinct items ascending and mapping each to its
relative frequency, which is how it is written here. -/
def StochasticLanguage.from_items {T : Type} [LinearOrder T] [DecidableEq T]
    (items : List T) : StochasticLanguage T :=
  let population_size : ℚ := (items.length : ℚ)
  let variants : List T := (items.dedup).insertionSort (· ≤ ·)
  { variants := variants
    frequencies := variants.map (fun k => (items.count k : ℚ) / population_size) }

/-- Model of Rust's `Iterator::position`: index of the first element
satisfying the predicate, or `none`. -/
def position {T : Type} (p : T → Bool) : List T → Option ℕ
  | [] => none
  | x :: xs => if p x then some 0 else (position p xs).map (· + 1)

/-- Sequence a panicking computation over a list: Rust's
`iter().map(...).collect()` where a panic (`none`) in any element aborts
the whole loop. -/
def traverseOption {α β : Type} (f : α → Option β) : List α → Option (List β)
  | [] => some []
  | x :: xs =>
    match f x, traverseOption f xs with
    | some y, some ys => some (y :: ys)
    | _, _ => none

/-- The p-value computation shared (textually duplicated) by both
comparators: the fraction of resampled EMDs strictly greater than the
observed EMD, with `distribution_size` as the denominator. -/
def pvalue_of (emds : List ℚ) (logs_emd : ℚ) (distribution_size : ℕ) : ℚ :=
  ((emds.filter (fun emd => decide (logs_emd < emd))).length : ℚ)
    / (distribution_size : ℚ)

section WeightedLevenshtein

/-- The capability set of the `LevenshteinDistance` trait
(`weighted_levenshtein.rs`): per-token insertion, deletion and
substitution costs. -/
structure LevenshteinDistance (T : Type) where
  insertion_cost : T → ℚ
  deletion_cost : T → ℚ
  substitution_cost : T → T → ℚ

/-- Model of the source's `float_min` (`if x < y { x } else { y }`). -/
def float_min (x y : ℚ) : ℚ := if x < y then x else y

/-- Model of the source's `triple_min_f64`. -/
def triple_min_f64 (x y z : ℚ) : ℚ := float_min x (float_min y z)

/-- The dynamic-programming matrix of `weighted_levenshtein_distance`.
`levenshtein_matrix C t1 t2 i j` is the cell `matrix[(i, j)]` after the
fill loops have run.  Note that, as in the source, the first *column*
(`(i+1, 0)`) accumulates the `insertion_cost` of `trace_1`'s tokens, not
the `deletion_cost`. -/
def levenshtein_matrix {T : Type} [Inhabited T] (C : LevenshteinDistance T)
    (t1 t2 : List T) : ℕ → ℕ → ℚ
  | 0, 0 => 0
  | i + 1, 0 => levenshtein_matrix C t1 t2 i 0 + C.insertion_cost (t1.getD i default)
  | 0, j + 1 => levenshtein_matrix C t1 t2 0 j + C.insertion_cost (t2.getD j default)
  | i + 1, j + 1 =>
    triple_min_f64
      (levenshtein_matrix C t1 t2 i (j + 1) + C.deletion_cost (t1.getD i default))
      (levenshtein_matrix C t1 t2 (i + 1) j + C.insertion_cost (t2.getD j default))
      (levenshtein_matrix C t1 t2 i j
        + C.substitution_cost (t1.getD i default) (t2.getD j default))

/-- Model of `weighted_levenshtein_distance`: equal traces short-circuit
to `0.0` before the DP matrix is built; otherwise the value is the DP
cell `matrix[(len_1, len_2)]`. -/
def weighted_levenshtein_distance {T : Type} [Inhabited T] [DecidableEq T]
    (C : LevenshteinDistance T) (trace_1 trace_2 : List T) : ℚ :=
  if trace_1 = trace_2 then 0
  else levenshtein_matrix C trace_1 trace_2 trace_1.length trace_2.length

/-- Model of `postnormalized_weighted_levenshtein_distance`: the distance
divided by the longer length.  When both traces are empty the source
computes the `f64` division `0.0 / 0.0`, which is NaN; that case is
modelled as `none`. -/
def postnormalized_weighted_levenshtein_distance {T : Type} [Inhabited T]
    [DecidableEq T] (C : LevenshteinDistance T) (trace_1 trace_2 : List T) :
    Option ℚ :=
  let length : ℚ := ((max trace_1.length trace_2.length : ℕ) : ℚ)
  let distance := weighted_levenshtein_distance C trace_1 trace_2
  if length = 0 then none else some (distance / length)

/-- The unit-cost instance of the trait (the source's `impl` for `String`
and for `char`, here over `ℕ` tokens): insertion and deletion cost `1.0`,
substitution cost `0.0` for equal tokens and `1.0` otherwise. -/
def unitCosts : LevenshteinDistance ℕ :=
  { insertion_cost := fun _ => 1
    deletion_cost := fun _ => 1
    substitution_cost := fun a b => if a = b then 0 else 1 }

end WeightedLevenshtein

section DistanceMatrix

/-- Model of `BootstrapTestComparator::compute_distance_matrix`
(`Array2::from_shape_fn`): the full `(|variants_1|, |variants_2|)` matrix
of pairwise costs. -/
def compute_distance_matrix {T : Type} [Inhabited T] (cost : T → T → ℚ)
    (variants_1 variants_2 : List T) : QMatrix :=
  { rows := variants_1.length
    cols := variants_2.length
    entry := fun i j => cost (variants_1.getD i default) (variants_2.getD j default) }

/-- A single in-place write `mat[(i, j)] = v` on a matrix-as-function. -/
def writeEntry (m : ℕ → ℕ → ℚ) (i j : ℕ) (v : ℚ) : ℕ → ℕ → ℚ :=
  fun a b => if a = i ∧ b = j then v else m a b

/-- Model of `PermutationTestComparator::compute_symmetric_distance_matrix`:
starting from `Array2::zeros`, for each `i` and each `j ≥ i` write
`mat[(i, j)] = cost(variants[i], variants[j])` and mirror it into
`mat[(j, i)]`.  The nested `for_each` loops become nested `foldl`s over
the same index ranges. -/
def compute_symmetric_distance_matrix {T : Type} [Inhabited T]
    (cost : T → T → ℚ) (variants : List T) : QMatrix :=
  let n := variants.length
  let filled : ℕ → ℕ → ℚ :=
    (List.range n).foldl
      (fun m i =>
        ((List.range n).drop i).foldl
          (fun m2 j =>
            let v := cost (variants.getD i default) (variants.getD j default)
            writeEntry (writeEntry m2 i j v) j i v)
          m)
      (fun _ _ => 0)
  { rows := n, cols := n, entry := filled }

/-- Model of `project_distance_matrix`: select the rows of the source
matrix belonging to `population_1`'s variants and the columns belonging
to `population_2`'s variants, each variant located by the *first*
position lookup (`iter().position(...)`) in the source population.  The
source `unwrap`s the lookup, so an absent variant panics: `none`. -/
def project_distance_matrix {T : Type} [DecidableEq T] (dists : QMatrix)
    (dist_matrix_source_population : List T)
    (population_1 population_2 : StochasticLanguage T) : Option QMatrix :=
  match
    traverseOption
      (fun item => position (fun x => x = item) dist_matrix_source_population)
      population_1.variants,
    traverseOption
      (fun item => position (fun x => x = item) dist_matrix_source_population)
      population_2.variants with
  | some pop_1_indices, some pop_2_indices =>
    some { rows := pop_1_indices.length
           cols := pop_2_indices.length
           entry := fun i j => dists.entry (pop_1_indices.getD i 0) (pop_2_indices.getD j 0) }
  | _, _ => none

end DistanceMatrix

section Emd

/-- The failure modes of the external EMD solver (§6 of the design):
infeasible, unbounded, or iteration limit exceeded. -/
inductive SolverError : Type
  | infeasible
  | unbounded
  | maxIterationsReached
deriving DecidableEq

/-- The black-box transportation solver: two frequency vectors and a cost
matrix in, either a flow matrix or a typed failure out.  The concrete
solver is the external `rust_optimal_transport` crate; the embedding
abstracts it as a function and quantifies over it. -/
abbrev Solver : Type := List ℚ → List ℚ → QMatrix → Except SolverError QMatrix

/-- `Σ_{i,j} a[i,j] * b[i,j]` over `a`'s shape: the total cost
`(&ot_matrix * distances).sum()`. -/
def matrixDotSum (a b : QMatrix) : ℚ :=
  ((List.range a.rows).map (fun i =>
    ((List.range a.cols).map (fun j => a.entry i j * b.entry i j)).sum)).sum

/-- Model of `EmdResult` (`emd.rs`). -/
structure EmdResult where
  flow_matrix : QMatrix
  emd : ℚ

/-- Model of `compute_emd` (`emd.rs`): invoke the solver and `.unwrap()`
its result — a solver failure of any kind **panics** (`none`); it is not
returned as a value. -/
def compute_emd (solver : Solver) (frequencies_1 frequencies_2 : List ℚ)
    (distances : QMatrix) : Option EmdResult :=
  match solver frequencies_1 frequencies_2 distances with
  | .ok ot_matrix =>
    some { flow_matrix := ot_matrix, emd := matrixDotSum ot_matrix distances }
  | .error _ => none

end Emd

section Binning

/-- Model of `OuterPercentileBinner` (`outer_percentile_binner.rs`). -/
structure OuterPercentileBinner where
  lower_boundary : ℚ
  upper_boundary : ℚ
deriving DecidableEq

/-- Model of the `percentile` helper: sort the data with `total_cmp` and
linearly interpolate between the order statistics around the fractional
rank `p/100 * (len - 1)`.  A percentile argument outside `[0, 100]`
panics (`none`); empty data makes `data.len() - 1` underflow and the
subsequent indexing panic, also modelled as `none`. -/
def percentile (data : List ℚ) (p : ℚ) : Option ℚ :=
  if ¬ (0 ≤ p ∧ p ≤ 100) then none
  else if data.length = 0 then none
  else
    let sorted := data.insertionSort (· ≤ ·)
    let rank : ℚ := p / 100 * ((data.length - 1 : ℕ) : ℚ)
    let lower_index : ℕ := ⌊rank⌋.toNat
    let upper_index : ℕ := ⌈rank⌉.toNat
    if lower_index = upper_index then some (sorted.getD lower_index 0)
    else
      let lower_value := sorted.getD lower_index 0
      let upper_value := sorted.getD upper_index 0
      some (lower_value + (upper_value - lower_value) * (rank - (lower_index : ℚ)))

/-- Model of `OuterPercentileBinner::new`: the lower boundary is the
`args`-th percentile and the upper boundary the `(100 - args)`-th. -/
def OuterPercentileBinner.new (data : List ℚ) (args : ℚ) :
    Option OuterPercentileBinner := do
  let lower_boundary ← percentile data args
  let upper_boundary ← percentile data (100 - args)
  pure { lower_boundary := lower_boundary, upper_boundary := upper_boundary }

/-- Model of `OuterPercentileBinner::bin`: `0` below the lower boundary,
then `1` below the upper boundary, else `2`. -/
def OuterPercentileBinner.bin (b : OuterPercentileBinner) (data : ℚ) : ℕ :=
  if data < b.lower_boundary then 0
  else if data < b.upper_boundary then 1
  else 2

/-- Model of `OuterPercentileBinner::num_bins`: always `3`. -/
def OuterPercentileBinner.num_bins (_ : OuterPercentileBinner) : ℕ := 3

/-- Model of `KMeansBinner`: the sorted centroid list.  (`args` only
feeds `num_bins`, which claim C9 does not concern.) -/
structure KMeansBinner where
  centroids : List ℚ

/-- Model of `KMeansBinner::new`: take the centroids produced by the
k-means++ clustering run (abstracted here as `raw_centroids`, since the
clustering is seeded by an RNG) and sort them ascending with
`total_cmp`. -/
def KMeansBinner.new (raw_centroids : List ℚ) : KMeansBinner :=
  { centroids := raw_centroids.insertionSort (· ≤ ·) }

/-- Model of Rust's `Iterator::enumerate`, with an explicit start
index. -/
def enumerate {α : Type} (start : ℕ) : List α → List (ℕ × α)
  | [] => []
  | x :: xs => (start, x) :: enumerate (start + 1) xs

/-- The fold underlying Rust's `Iterator::min_by`: keep the accumulator
unless the next element is strictly smaller, so the *first* minimal
element wins ties. -/
def minByFold (first : ℕ × ℚ) (rest : List (ℕ × ℚ)) : ℕ × ℚ :=
  rest.foldl (fun acc q => if q.2 < acc.2 then q else acc) first

/-- Model of `KMeansBinner::bin`: index of the centroid nearest to
`data`, via `map |c| (data - c).abs()`, `enumerate`, `min_by`.  On an
empty centroid list `min_by` yields `None` and the `unwrap` panics
(`none`). -/
def KMeansBinner.bin (b : KMeansBinner) (data : ℚ) : Option ℕ :=
  match enumerate 0 (b.centroids.map (fun val => |data - val|)) with
  | [] => none
  | p :: rest => some (minByFold p rest).1

end Binning

section Comparators

/-- Model of `AttributeLevel` (`attribute_error.rs`). -/
inductive AttributeLevel : Type
  | event
  | trace
  | log
deriving DecidableEq

/-- Model of `AttributeErrorKind`: a missing attribute, or a type
mismatch carrying the expected type and (as its display text) the found
value. -/
inductive AttributeErrorKind : Type
  | missingAttribute
  | typeMismatch (expected : String) (found : String)
deriving DecidableEq

/-- Model of `AttributeError`: level + key + kind. -/
structure AttributeError where
  level : AttributeLevel
  key : String
  kind : AttributeErrorKind
deriving DecidableEq

/-- Model of `AttributeResult<T>`. -/
abbrev AttributeResult (T : Type) : Type := Except AttributeError T

/-- Model of `BootstrapTestComparisonResult`. -/
structure BootstrapTestComparisonResult where
  logs_emd : ℚ
  bootstrap_emds : List ℚ
  pvalue : ℚ
deriving DecidableEq

/-- Model of `BootstrapTestComparator::bootstrap_emd_population`: compute
the self-distance matrix of the reference language once, then for each of
the `distribution_size` iterations build a stochastic language from that
iteration's drawn variant indices, project the matrix rows onto the
sample's variants, and compute the EMD to the reference language.  The
weighted RNG draws are abstracted: `sample_draws t` is the list of
`resample_size` variant indices drawn in iteration `t`. -/
def bootstrap_emd_population {T : Type} [Inhabited T] [LinearOrder T]
    [DecidableEq T] (cost : T → T → ℚ) (solver : Solver)
    (reference_stochastic_language : StochasticLanguage T)
    (_resample_size distribution_size : ℕ) (sample_draws : ℕ → List ℕ) :
    Option (List ℚ) :=
  let distance_matrix :=
    compute_distance_matrix cost reference_stochastic_language.variants
      reference_stochastic_language.variants
  traverseOption
    (fun t =>
      let sample_indices : List ℕ := sample_draws t
      let sample_stochastic_language := StochasticLanguage.from_items sample_indices
      let projected_costs : QMatrix :=
        { rows := sample_stochastic_language.variants.length
          cols := distance_matrix.cols
          entry := fun i j =>
            distance_matrix.entry (sample_stochastic_language.variants.getD i 0) j }
      (compute_emd solver sample_stochastic_language.frequencies
          reference_stochastic_language.frequencies projected_costs).map
        (fun r => r.emd))
    (List.range distribution_size)

/-- Model of `BootstrapTestComparator::compare`.  The trait-object inputs
are abstracted: `extracted` is the result of
`extract_representations(log_1, log_2)` and `cost` the comparator's cost
function.  An extraction error is returned with `?` as the `Err` variant;
a solver failure inside `compute_emd` panics (`none`). -/
def BootstrapTestComparator.compare {T : Type} [Inhabited T] [LinearOrder T]
    [DecidableEq T] (cost : T → T → ℚ) (solver : Solver)
    (extracted : AttributeResult (List T × List T))
    (resample_size distribution_size : ℕ) (sample_draws : ℕ → List ℕ) :
    Option (AttributeResult BootstrapTestComparisonResult) :=
  match extracted with
  | .error e => some (.error e)
  | .ok (behavior_1, behavior_2) =>
    let stoch_lang_1 := StochasticLanguage.from_items behavior_1
    let stoch_lang_2 := StochasticLanguage.from_items behavior_2
    match
      compute_emd solver stoch_lang_1.frequencies stoch_lang_2.frequencies
        (compute_distance_matrix cost stoch_lang_1.variants stoch_lang_2.variants) with
    | none => none
    | some baseline =>
      match
        bootstrap_emd_population cost solver stoch_lang_1 resample_size
          distribution_size sample_draws with
      | none => none
      | some bootstrap_emds =>
        some (.ok
          { logs_emd := baseline.emd
            bootstrap_emds := bootstrap_emds
            pvalue := pvalue_of bootstrap_emds baseline.emd distribution_size })

/-- Model of `PermutationTestComparisonResult`. -/
structure PermutationTestComparisonResult where
  logs_emd : ℚ
  permutation_emds : List ℚ
  pvalue : ℚ
deriving DecidableEq

/-- The per-group sample-language construction inlined in each iteration
of `compute_permutation_test_distribution`: map each drawn case index to
its pooled-variant index, count, and divide each count by
`behavior_1.len()`.  The source uses `behavior_1.len()` as the
denominator in **both** closures (lines 238 and 245), which is what
`behavior_1_len` models; the hash-map iteration order of `.counts()` is
canonicalized ascending (the claims proved about this value are
order-independent). -/
def translate_sample (population_indices_to_variant_indices : List ℕ)
    (behavior_1_len : ℕ) (sample_part : List ℕ) : StochasticLanguage ℕ :=
  let mapped := sample_part.map
    (fun index => population_indices_to_variant_indices.getD index 0)
  let keys : List ℕ := (mapped.dedup).insertionSort (· ≤ ·)
  { variants := keys
    frequencies := keys.map (fun k => (mapped.count k : ℚ) / (behavior_1_len : ℚ)) }

/-- Model of `compute_permutation_test_distribution`: translate every
pooled case to its variant's row/column in the pooled distance matrix
(an `unwrap`ped position lookup: `none` on absence), then for each of the
`distribution_size` iterations split a shuffled index list into the two
groups, build the two sample languages, project the pooled matrix onto
the pair and compute the EMD.  The `partial_shuffle` RNG is abstracted:
`shuffles t` is iteration `t`'s shuffled list of the case indices
`0 .. sample_size`. -/
def compute_permutation_test_distribution {T : Type} [DecidableEq T]
    (solver : Solver) (dists : QMatrix)
    (distance_matrix_source_population : List T)
    (behavior_1 behavior_2 : List T) (distribution_size : ℕ)
    (shuffles : ℕ → List ℕ) : Option (List ℚ) :=
  match
    traverseOption
      (fun item => position (fun x => x = item) distance_matrix_source_population)
      (behavior_1 ++ behavior_2) with
  | none => none
  | some population_indices_to_variant_indices =>
    traverseOption
      (fun t =>
        let sample := shuffles t
        let sample_1 := sample.take behavior_1.length
        let sample_2 := sample.drop behavior_1.length
        let translated_sample_1 :=
          translate_sample population_indices_to_variant_indices
            behavior_1.length sample_1
        let translated_sample_2 :=
          translate_sample population_indices_to_variant_indices
            behavior_1.length sample_2
        let projected_dists : QMatrix :=
          { rows := translated_sample_1.variants.length
            cols := translated_sample_2.variants.length
            entry := fun i j =>
              dists.entry (translated_sample_1.variants.getD i 0)
                (translated_sample_2.variants.getD j 0) }
        (compute_emd solver translated_sample_1.frequencies
            translated_sample_2.frequencies projected_dists).map
          (fun r => r.emd))
      (List.range distribution_size)

/-- Model of `PermutationTestComparator::compare`: pool and deduplicate
the two logs' representations into a sorted combined variant list (the
source collects into a `HashSet` and sorts), compute one symmetric
distance matrix over the pool, compute the baseline EMD on the projected
matrix, then the permutation distribution and the p-value. -/
def PermutationTestComparator.compare {T : Type} [Inhabited T] [LinearOrder T]
    [DecidableEq T] (cost : T → T → ℚ) (solver : Solver)
    (extracted : AttributeResult (List T × List T)) (distribution_size : ℕ)
    (shuffles : ℕ → List ℕ) :
    Option (AttributeResult PermutationTestComparisonResult) :=
  match extracted with
  | .error e => some (.error e)
  | .ok (behavior_1, behavior_2) =>
    let combined_variants : List T :=
      ((behavior_1 ++ behavior_2).dedup).insertionSort (· ≤ ·)
    let stoch_lang_1 := StochasticLanguage.from_items behavior_1
    let stoch_lang_2 := StochasticLanguage.from_items behavior_2
    let large_distance_matrix := compute_symmetric_distance_matrix cost combined_variants
    match
      project_distance_matrix large_distance_matrix combined_variants
        stoch_lang_1 stoch_lang_2 with
    | none => none
    | some log_1_log_2_distances =>
      match
        compute_emd solver stoch_lang_1.frequencies stoch_lang_2.frequencies
          log_1_log_2_distances with
      | none => none
      | some baseline =>
        match
          compute_permutation_test_distribution solver large_distance_matrix
            combined_variants behavior_1 behavior_2 distribution_size shuffles with
        | none => none
        | some permutation_emds =>
          some (.ok
            { logs_emd := baseline.emd
              permutation_emds := permutation_emds
              pvalue := pvalue_of permutation_emds baseline.emd distribution_size })

end Comparators

/-! ## Properties of the weighted Levenshtein distance -/

section LevenshteinTheorems

lemma float_min_eq_min (x y : ℚ) : float_min x y = min x y := by
  unfold float_min
  rcases lt_trichotomy x y with h | h | h
  · rw [if_pos h, min_eq_left h.le]
  · subst h; simp
  · rw [if_neg (not_lt.mpr h.le), min_eq_right h.le]

lemma triple_min_f64_eq_min (x y z : ℚ) : triple_min_f64 x y z = min x (min y z) := by
  unfold triple_min_f64
  rw [float_min_eq_min, float_min_eq_min]

lemma levenshtein_matrix_symm_aux {T : Type} [Inhabited T]
    (C : LevenshteinDistance T)
    (hid : ∀ x, C.insertion_cost x = C.deletion_cost x)
    (hsub : ∀ x y, C.substitution_cost x y = C.substitution_cost y x)
    (t1 t2 : List T) :
    ∀ i j, levenshtein_matrix C t1 t2 i j = levenshtein_matrix C t2 t1 j i := by
  intro i j
  induction i, j using levenshtein_matrix.induct C t1 t2 with
  | case1 => rw [levenshtein_matrix, levenshtein_matrix]
  | case2 i ih =>
    rw [levenshtein_matrix, levenshtein_matrix, ih]
  | case3 j ih =>
    rw [levenshtein_matrix, levenshtein_matrix, ih]
  | case4 i j ih1 ih2 ih3 =>
    rw [levenshtein_matrix]
    conv_rhs => rw [levenshtein_matrix]
    rw [ih1, ih2, ih3, triple_min_f64_eq_min, triple_min_f64_eq_min]
    rw [hid (t1.getD i default), ← hid (t2.getD j default),
      hsub (t1.getD i default) (t2.getD j default)]
    rw [← min_assoc, ← min_assoc, min_comm
      (levenshtein_matrix C t2 t1 (j + 1) i + C.deletion_cost (t1.getD i default))
      (levenshtein_matrix C t2 t1 j (i + 1) + C.insertion_cost (t2.getD j default))]

lemma levenshtein_matrix_nonneg {T : Type} [Inhabited T]
    (C : LevenshteinDistance T)
    (hins : ∀ x, 0 ≤ C.insertion_cost x)
    (hdel : ∀ x, 0 ≤ C.deletion_cost x)
    (hsub : ∀ x y, 0 ≤ C.substitution_cost x y)
    (t1 t2 : List T) :
    ∀ i j, 0 ≤ levenshtein_matrix C t1 t2 i j := by
  intro i j
  induction i, j using levenshtein_matrix.induct C t1 t2 with
  | case1 => rw [levenshtein_matrix]
  | case2 i ih => rw [levenshtein_matrix]; exact add_nonneg ih (hins _)
  | case3 j ih => rw [levenshtein_matrix]; exact add_nonneg ih (hins _)
  | case4 i j ih1 ih2 ih3 =>
    rw [levenshtein_matrix, triple_min_f64_eq_min]
    exact le_min (add_nonneg ih1 (hdel _))
      (le_min (add_nonneg ih2 (hins _)) (add_nonneg ih3 (hsub _ _)))

lemma levenshtein_matrix_le_max {T : Type} [Inhabited T]
    (C : LevenshteinDistance T)
    (hins : ∀ x, C.insertion_cost x ≤ 1)
    (hsub : ∀ x y, C.substitution_cost x y ≤ 1)
    (t1 t2 : List T) :
    ∀ i j, levenshtein_matrix C t1 t2 i j ≤ ((max i j : ℕ) : ℚ) := by
  intro i j
  induction i, j using levenshtein_matrix.induct C t1 t2 with
  | case1 => rw [levenshtein_matrix]; simp
  | case2 i ih =>
    rw [levenshtein_matrix]
    have : ((max (i + 1) 0 : ℕ) : ℚ) = ((max i 0 : ℕ) : ℚ) + 1 := by
      simp
    rw [this]
    exact add_le_add ih (hins _)
  | case3 j ih =>
    rw [levenshtein_matrix]
    have : ((max 0 (j + 1) : ℕ) : ℚ) = ((max 0 j : ℕ) : ℚ) + 1 := by
      simp
    rw [this]
    exact add_le_add ih (hins _)
  | case4 i j ih1 ih2 ih3 =>
    rw [levenshtein_matrix, triple_min_f64_eq_min]
    have hmax : ((max (i + 1) (j + 1) : ℕ) : ℚ) = ((max i j : ℕ) : ℚ) + 1 := by
      rw [Nat.succ_max_succ]
      push_cast
      ring
    calc min (levenshtein_matrix C t1 t2 i (j + 1) + C.deletion_cost (t1.getD i default))
          (min (levenshtein_matrix C t1 t2 (i + 1) j + C.insertion_cost (t2.getD j default))
            (levenshtein_matrix C t1 t2 i j
              + C.substitution_cost (t1.getD i default) (t2.getD j default)))
        ≤ levenshtein_matrix C t1 t2 i j
            + C.substitution_cost (t1.getD i default) (t2.getD j default) :=
          le_trans (min_le_right _ _) (min_le_right _ _)
      _ ≤ ((max i j : ℕ) : ℚ) + 1 := add_le_add ih3 (hsub _ _)
      _ = ((max (i + 1) (j + 1) : ℕ) : ℚ) := hmax.symm

/-- C8: `weighted_levenshtein_distance` returns `0` for every pair of
equal sequences (the short-circuit branch), and is symmetric whenever the
per-token insertion and deletion costs agree and the substitution cost is
symmetric. -/
theorem claim_C8 {T : Type} [Inhabited T] [DecidableEq T]
    (C : LevenshteinDistance T)
    (hid : ∀ x, C.insertion_cost x = C.deletion_cost x)
    (hsub : ∀ x y, C.substitution_cost x y = C.substitution_cost y x)
    (a b : List T) :
    weighted_levenshtein_distance C a a = 0 ∧
    weighted_levenshtein_distance C a b = weighted_levenshtein_distance C b a := by
  constructor
  · unfold weighted_levenshtein_distance
    rw [if_pos rfl]
  · by_cases hab : a = b
    · subst hab; rfl
    · unfold weighted_levenshtein_distance
      rw [if_neg hab, if_neg (Ne.symm hab)]
      exact levenshtein_matrix_symm_aux C hid hsub a b a.length b.length

/-- C8 witness: the theorem applied at the unit-cost metric and the
concrete traces `[1, 2]` and `[2, 1]`. -/
theorem claim_C8_witness :
    weighted_levenshtein_distance unitCosts [1, 2] [1, 2] = 0 ∧
    weighted_levenshtein_distance unitCosts [1, 2] [2, 1]
      = weighted_levenshtein_distance unitCosts [2, 1] [1, 2] :=
  claim_C8 unitCosts (fun _ => rfl)
    (fun x y => by simp only [unitCosts, eq_comm]) [1, 2] [2, 1]

/-- C4 counterexample: for the pair of two empty sequences (with the
unit-cost metric, whose per-token costs all lie in `[0, 1]`), the source
computes `0.0 / 0.0`, which is NaN, not a value in `[0, 1]`; the
embedding returns `none` rather than any rational. -/
theorem claim_C4_counterexample :
    postnormalized_weighted_levenshtein_distance unitCosts ([] : List ℕ) [] = none := by
  decide

/-- C4 (amended): for every pair of token sequences, at least one of them
non-empty, whose per-token insertion, deletion and substitution costs all
lie in `[0, 1]`, the postnormalized distance is a value in `[0, 1]`.
(For the pair of two empty sequences the result is the `f64` NaN.) -/
theorem claim_C4 {T : Type} [Inhabited T] [DecidableEq T]
    (C : LevenshteinDistance T)
    (hins : ∀ x, 0 ≤ C.insertion_cost x ∧ C.insertion_cost x ≤ 1)
    (hdel : ∀ x, 0 ≤ C.deletion_cost x ∧ C.deletion_cost x ≤ 1)
    (hsub : ∀ x y, 0 ≤ C.substitution_cost x y ∧ C.substitution_cost x y ≤ 1)
    (t1 t2 : List T) (hne : t1 ≠ [] ∨ t2 ≠ []) :
    ∃ q, postnormalized_weighted_levenshtein_distance C t1 t2 = some q ∧
      0 ≤ q ∧ q ≤ 1 := by
  have hLpos : 0 < max t1.length t2.length := by
    rcases hne with h | h
    · exact lt_of_lt_of_le (List.length_pos.mpr h) (le_max_left _ _)
    · exact lt_of_lt_of_le (List.length_pos.mpr h) (le_max_right _ _)
  have hLq : (0 : ℚ) < ((max t1.length t2.length : ℕ) : ℚ) := by
    exact_mod_cast hLpos
  have hdist_nonneg : 0 ≤ weighted_levenshtein_distance C t1 t2 := by
    unfold weighted_levenshtein_distance
    split
    · exact le_refl 0
    · exact levenshtein_matrix_nonneg C (fun x => (hins x).1) (fun x => (hdel x).1)
        (fun x y => (hsub x y).1) t1 t2 _ _
  have hdist_le : weighted_levenshtein_distance C t1 t2
      ≤ ((max t1.length t2.length : ℕ) : ℚ) := by
    unfold weighted_levenshtein_distance
    split
    · exact le_of_lt hLq
    · exact levenshtein_matrix_le_max C (fun x => (hins x).2)
        (fun x y => (hsub x y).2) t1 t2 _ _
  refine ⟨weighted_levenshtein_distance C t1 t2 / ((max t1.length t2.length : ℕ) : ℚ),
    ?_, ?_, ?_⟩
  · unfold postnormalized_weighted_levenshtein_distance
    rw [if_neg (ne_of_gt hLq)]
  · exact div_nonneg hdist_nonneg (le_of_lt hLq)
  · rw [div_le_one hLq]
    exact hdist_le

/-- C4 witness: the amended theorem applied at the unit-cost metric and
the concrete pair `([1], [])`. -/
theorem claim_C4_witness :
    ∃ q, postnormalized_weighted_levenshtein_distance unitCosts [1] ([] : List ℕ)
      = some q ∧ 0 ≤ q ∧ q ≤ 1 :=
  claim_C4 unitCosts
    (fun _ => by norm_num [unitCosts])
    (fun _ => by norm_num [unitCosts])
    (fun x y => by by_cases h : x = y <;> simp [unitCosts, h])
    [1] [] (Or.inl (by simp))

end LevenshteinTheorems

/-! ## Properties of stochastic-language construction -/

section StochasticLanguageTheorems

lemma from_items_variants_perm {T : Type} [LinearOrder T] [DecidableEq T]
    (items : List T) :
    (StochasticLanguage.from_items items).variants.Perm items.dedup :=
  List.perm_insertionSort _ _

/-- C5: for every non-empty input list, `from_items` produces variants
that are exactly the distinct input items in strictly ascending order,
frequencies parallel to the variants with `frequencies[i] =
count(variants[i]) / |items|`, and frequencies summing to exactly `1`
(hence within the `1e-9` tolerance). -/
theorem claim_C5 {T : Type} [LinearOrder T] [DecidableEq T] (items : List T)
    (hne : items ≠ []) :
    (StochasticLanguage.from_items items).variants.Nodup ∧
    List.Sorted (· < ·) (StochasticLanguage.from_items items).variants ∧
    (∀ x, x ∈ (StochasticLanguage.from_items items).variants ↔ x ∈ items) ∧
    (StochasticLanguage.from_items items).frequencies
      = (StochasticLanguage.from_items items).variants.map
          (fun k => (items.count k : ℚ) / (items.length : ℚ)) ∧
    (StochasticLanguage.from_items items).frequencies.sum = 1 := by
  have hperm : (StochasticLanguage.from_items items).variants.Perm items.dedup :=
    from_items_variants_perm items
  have hnodup : (StochasticLanguage.from_items items).variants.Nodup :=
    hperm.nodup_iff.mpr items.nodup_dedup
  refine ⟨hnodup, ?_, ?_, rfl, ?_⟩
  · exact (List.sorted_insertionSort (· ≤ ·) items.dedup).lt_of_le hnodup
  · intro x
    rw [hperm.mem_iff, List.mem_dedup]
  · show ((StochasticLanguage.from_items items).variants.map
        (fun k => (items.count k : ℚ) / (items.length : ℚ))).sum = 1
    rw [(hperm.map (fun k => (items.count k : ℚ) / (items.length : ℚ))).sum_eq]
    have hlen : ((items.length : ℕ) : ℚ) ≠ 0 := by
      exact_mod_cast (Nat.pos_of_ne_zero
        (fun h => hne (List.length_eq_zero.mp h))).ne.symm
    have : (items.dedup.map (fun k => (items.count k : ℚ) / (items.length : ℚ))).sum
        = ((items.dedup.map (fun k => (items.count k : ℚ))).sum) / (items.length : ℚ) := by
      induction items.dedup with
      | nil => simp
      | cons a l ih => simp [ih, add_div]
    rw [this]
    have hcast : (items.dedup.map (fun k => (items.count k : ℚ))).sum
        = ((items.dedup.map (fun k => items.count k)).sum : ℕ) := by
      induction items.dedup with
      | nil => simp
      | cons a l ih => simp [ih]
    rw [hcast, List.sum_map_count_dedup_eq_length]
    exact div_self hlen

/-- C5 witness: the theorem applied at the concrete list `[1, 0, 1]`. -/
theorem claim_C5_witness :
    (StochasticLanguage.from_items [1, 0, 1]).variants.Nodup ∧
    List.Sorted (· < ·) (StochasticLanguage.from_items [1, 0, 1]).variants ∧
    (∀ x, x ∈ (StochasticLanguage.from_items [1, 0, 1]).variants ↔ x ∈ [1, 0, 1]) ∧
    (StochasticLanguage.from_items [1, 0, 1]).frequencies
      = (StochasticLanguage.from_items [1, 0, 1]).variants.map
          (fun k => (([1, 0, 1] : List ℕ).count k : ℚ) / (([1, 0, 1] : List ℕ).length : ℚ)) ∧
    (StochasticLanguage.from_items [1, 0, 1]).frequencies.sum = 1 :=
  claim_C5 [1, 0, 1] (by simp)

end StochasticLanguageTheorems

/-! ## Properties of the outer-percentile binner -/

section OuterPercentileTheorems

/-- C3 counterexample: train the binner on `[0, 1, 2, 3, 4]` with
percentile argument `25`; the boundaries are `1` and `3`, and a value
equal to the upper threshold is assigned bin `2`, not bin `1` as the
claim states ("1 ... in particular for x equal to either threshold"). -/
theorem claim_C3_counterexample :
    OuterPercentileBinner.new [0, 1, 2, 3, 4] 25
      = some { lower_boundary := 1, upper_boundary := 3 } ∧
    OuterPercentileBinner.bin { lower_boundary := 1, upper_boundary := 3 } 3 = 2 := by
  constructor
  · have h1 : percentile [0, 1, 2, 3, 4] 25 = some 1 := by
      simp only [percentile, List.insertionSort, List.orderedInsert]
      norm_num
    have h2 : percentile [0, 1, 2, 3, 4] (100 - 25) = some 3 := by
      simp only [percentile, List.insertionSort, List.orderedInsert]
      norm_num
      simp
    simp [OuterPercentileBinner.new, h1, h2]
  · simp [OuterPercentileBinner.bin]

/-- C3 (amended): for every binner whose lower boundary does not exceed
its upper boundary (as produced by training with a percentile argument
`≤ 50`), `bin(x)` is `0` exactly when `x` is below the lower threshold,
`2` exactly when `x` is **at or above** the upper threshold (so a value
equal to the upper threshold gets bin 2, and one equal to the lower
threshold gets bin 1 when the thresholds differ), `1` otherwise, and
`num_bins()` is always `3`. -/
theorem claim_C3 (b : OuterPercentileBinner)
    (h : b.lower_boundary ≤ b.upper_boundary) (x : ℚ) :
    (b.bin x = 0 ↔ x < b.lower_boundary) ∧
    (b.bin x = 2 ↔ b.upper_boundary ≤ x) ∧
    (b.bin x = 1 ↔ b.lower_boundary ≤ x ∧ x < b.upper_boundary) ∧
    b.num_bins = 3 := by
  have hb : b.bin x
      = if x < b.lower_boundary then 0
        else if x < b.upper_boundary then 1 else 2 := rfl
  by_cases h1 : x < b.lower_boundary
  · rw [hb, if_pos h1]
    refine ⟨iff_of_true rfl h1, iff_of_false (by norm_num) ?_,
      iff_of_false (by norm_num) ?_, rfl⟩
    · intro hc; linarith
    · intro hc; exact absurd h1 (not_lt.mpr hc.1)
  · by_cases h2 : x < b.upper_boundary
    · rw [hb, if_neg h1, if_pos h2]
      exact ⟨iff_of_false (by norm_num) h1,
        iff_of_false (by norm_num) (not_le.mpr h2),
        iff_of_true rfl ⟨not_lt.mp h1, h2⟩, rfl⟩
    · rw [hb, if_neg h1, if_neg h2]
      exact ⟨iff_of_false (by norm_num) h1,
        iff_of_true rfl (not_lt.mp h2),
        iff_of_false (by norm_num) (fun hc => h2 hc.2), rfl⟩

/-- C3 witness: the amended theorem applied at the binner trained in the
counterexample (boundaries `1` and `3`) and the value `2`. -/
theorem claim_C3_witness :
    (OuterPercentileBinner.bin { lower_boundary := 1, upper_boundary := 3 } 2 = 0
        ↔ (2 : ℚ) < 1) ∧
    (OuterPercentileBinner.bin { lower_boundary := 1, upper_boundary := 3 } 2 = 2
        ↔ (3 : ℚ) ≤ 2) ∧
    (OuterPercentileBinner.bin { lower_boundary := 1, upper_boundary := 3 } 2 = 1
        ↔ (1 : ℚ) ≤ 2 ∧ (2 : ℚ) < 3) ∧
    OuterPercentileBinner.num_bins { lower_boundary := 1, upper_boundary := 3 } = 3 :=
  claim_C3 { lower_boundary := 1, upper_boundary := 3 } (by norm_num) 2

end OuterPercentileTheorems

/-! ## Properties of the distance-matrix engine -/

section DistanceMatrixTheorems

lemma drop_range' : ∀ (k s n : ℕ), (List.range' s n).drop k = List.range' (s + k) (n - k) := by
  intro k
  induction k with
  | zero => intro s n; simp
  | succ k ih =>
    intro s n
    cases n with
    | zero => simp
    | succ m =>
      rw [List.range'_succ, List.drop_succ_cons, ih (s + 1) m]
      congr 1 <;> omega

lemma mem_drop_range (n k b : ℕ) : b ∈ (List.range n).drop k ↔ k ≤ b ∧ b < n := by
  rw [List.range_eq_range', drop_range', List.mem_range']
  constructor
  · rintro ⟨i, hi, rfl⟩
    omega
  · intro h
    exact ⟨b - k, by omega, by omega⟩

lemma sym_inner_fold {T : Type} [Inhabited T] (cost : T → T → ℚ) (variants : List T) (i : ℕ) :
    ∀ (L : List ℕ) (m : ℕ → ℕ → ℚ) (a b : ℕ),
      (L.foldl (fun m2 j =>
          let v := cost (variants.getD i default) (variants.getD j default)
          writeEntry (writeEntry m2 i j v) j i v) m) a b
      = if a = i ∧ b ∈ L then cost (variants.getD i default) (variants.getD b default)
        else if b = i ∧ a ∈ L then cost (variants.getD i default) (variants.getD a default)
        else m a b := by
  intro L
  induction L with
  | nil => intro m a b; simp
  | cons j rest ih =>
    intro m a b
    rw [List.foldl_cons, ih]
    simp only [writeEntry, List.mem_cons]
    by_cases hai : a = i
    · subst hai
      by_cases hbr : b ∈ rest
      · simp [hbr]
      · by_cases hbi : b = a
        · subst hbi
          by_cases hij : b = j <;> simp_all
        · by_cases hbj : b = j <;> simp_all
    · by_cases hbi : b = i
      · subst hbi
        by_cases har : a ∈ rest
        · simp [har, hai]
        · by_cases haj : a = j <;> simp_all
      · by_cases haj : a = j <;> by_cases hbj : b = j <;> simp_all

lemma sym_outer_fold {T : Type} [Inhabited T] (cost : T → T → ℚ) (variants : List T) :
    ∀ (k : ℕ), k ≤ variants.length → ∀ (a b : ℕ),
      ((List.range k).foldl
        (fun m i =>
          ((List.range variants.length).drop i).foldl
            (fun m2 j =>
              let v := cost (variants.getD i default) (variants.getD j default)
              writeEntry (writeEntry m2 i j v) j i v)
            m)
        (fun _ _ => 0)) a b
      = if a < variants.length ∧ b < variants.length ∧ min a b < k then
          (if a ≤ b then cost (variants.getD a default) (variants.getD b default)
           else cost (variants.getD b default) (variants.getD a default))
        else 0 := by
  intro k
  induction k with
  | zero =>
    intro _ a b
    simp
  | succ k ih =>
    intro hk a b
    rw [List.range_succ, List.foldl_append, List.foldl_cons, List.foldl_nil,
      sym_inner_fold, ih (by omega) a b]
    simp only [mem_drop_range]
    by_cases hai : a = k
    · subst hai
      by_cases hbn : a ≤ b ∧ b < variants.length
      · rw [if_pos ⟨rfl, hbn.1, hbn.2⟩, if_pos (by omega : a < variants.length ∧
          b < variants.length ∧ min a b < a + 1), if_pos hbn.1]
      · rw [if_neg (by omega), if_neg (by omega)]
        by_cases hprev : a < variants.length ∧ b < variants.length ∧ min a b < a
        · rw [if_pos hprev, if_pos (show a < variants.length ∧ b < variants.length ∧
            min a b < a + 1 by omega)]
        · rw [if_neg hprev, if_neg (show ¬ (a < variants.length ∧ b < variants.length ∧
            min a b < a + 1) by omega)]
    · by_cases hbi : b = k
      · subst hbi
        by_cases han : b ≤ a ∧ a < variants.length
        · rw [if_neg (by omega), if_pos ⟨rfl, han.1, han.2⟩, if_pos (show
            a < variants.length ∧ b < variants.length ∧ min a b < b + 1 by omega),
            if_neg (show ¬ a ≤ b by omega)]
        · rw [if_neg (by omega), if_neg (by omega)]
          by_cases hprev : a < variants.length ∧ b < variants.length ∧ min a b < b
          · rw [if_pos hprev, if_pos (show a < variants.length ∧ b < variants.length ∧
              min a b < b + 1 by omega)]
          · rw [if_neg hprev, if_neg (show ¬ (a < variants.length ∧ b < variants.length ∧
              min a b < b + 1) by omega)]
      · rw [if_neg (by omega), if_neg (by omega)]
        by_cases hprev : a < variants.length ∧ b < variants.length ∧ min a b < k
        · rw [if_pos hprev, if_pos (show a < variants.length ∧ b < variants.length ∧
            min a b < k + 1 by omega)]
        · rw [if_neg hprev, if_neg (show ¬ (a < variants.length ∧ b < variants.length ∧
            min a b < k + 1) by omega)]

lemma compute_symmetric_distance_matrix_entry {T : Type} [Inhabited T]
    (cost : T → T → ℚ) (variants : List T) (a b : ℕ)
    (ha : a < variants.length) (hb : b < variants.length) :
    (compute_symmetric_distance_matrix cost variants).entry a b
      = if a ≤ b then cost (variants.getD a default) (variants.getD b default)
        else cost (variants.getD b default) (variants.getD a default) := by
  simp only [compute_symmetric_distance_matrix]
  rw [sym_outer_fold cost variants variants.length le_rfl a b,
    if_pos (show a < variants.length ∧ b < variants.length ∧
      min a b < variants.length by omega)]

/-- C6: for every variant list and every symmetric cost function, the
symmetry-exploiting matrix equals the full `compute_distance_matrix(v, v)`
element-wise (within the shared shape), the shapes agree, and the
symmetric result satisfies `matrix[i][j] = matrix[j][i]`. -/
theorem claim_C6 {T : Type} [Inhabited T] (cost : T → T → ℚ)
    (variants : List T) (hsym : ∀ a b, cost a b = cost b a) (i j : ℕ)
    (hi : i < variants.length) (hj : j < variants.length) :
    (compute_symmetric_distance_matrix cost variants).entry i j
      = (compute_distance_matrix cost variants variants).entry i j ∧
    (compute_symmetric_distance_matrix cost variants).entry i j
      = (compute_symmetric_distance_matrix cost variants).entry j i ∧
    (compute_symmetric_distance_matrix cost variants).rows
      = (compute_distance_matrix cost variants variants).rows ∧
    (compute_symmetric_distance_matrix cost variants).cols
      = (compute_distance_matrix cost variants variants).cols := by
  have hfull : (compute_distance_matrix cost variants variants).entry i j
      = cost (variants.getD i default) (variants.getD j default) := rfl
  have h1 := compute_symmetric_distance_matrix_entry cost variants i j hi hj
  have h2 := compute_symmetric_distance_matrix_entry cost variants j i hj hi
  refine ⟨?_, ?_, rfl, rfl⟩
  · rw [h1, hfull]
    by_cases hij : i ≤ j
    · rw [if_pos hij]
    · rw [if_neg hij, hsym]
  · rw [h1, h2]
    by_cases hij : i ≤ j
    · by_cases hji : j ≤ i
      · have : i = j := le_antisymm hij hji
        subst this
        simp
      · rw [if_pos hij, if_neg hji]
    · by_cases hji : j ≤ i
      · rw [if_neg hij, if_pos hji]
      · omega

/-- C6 witness: the theorem applied at the absolute-difference cost (a
symmetric function) over the concrete variants `[3, 7]` and the indices
`(0, 1)`. -/
theorem claim_C6_witness :
    (compute_symmetric_distance_matrix (fun a b : ℕ => |(a : ℚ) - (b : ℚ)|)
        [3, 7]).entry 0 1
      = (compute_distance_matrix (fun a b : ℕ => |(a : ℚ) - (b : ℚ)|)
          [3, 7] [3, 7]).entry 0 1 ∧
    (compute_symmetric_distance_matrix (fun a b : ℕ => |(a : ℚ) - (b : ℚ)|)
        [3, 7]).entry 0 1
      = (compute_symmetric_distance_matrix (fun a b : ℕ => |(a : ℚ) - (b : ℚ)|)
          [3, 7]).entry 1 0 ∧
    (compute_symmetric_distance_matrix (fun a b : ℕ => |(a : ℚ) - (b : ℚ)|)
        [3, 7]).rows
      = (compute_distance_matrix (fun a b : ℕ => |(a : ℚ) - (b : ℚ)|)
          [3, 7] [3, 7]).rows ∧
    (compute_symmetric_distance_matrix (fun a b : ℕ => |(a : ℚ) - (b : ℚ)|)
        [3, 7]).cols
      = (compute_distance_matrix (fun a b : ℕ => |(a : ℚ) - (b : ℚ)|)
          [3, 7] [3, 7]).cols :=
  claim_C6 (fun a b : ℕ => |(a : ℚ) - (b : ℚ)|) [3, 7]
    (fun a b => abs_sub_comm _ _) 0 1 (by simp) (by simp)

end DistanceMatrixTheorems

/-! ## Properties of distance-matrix projection -/

section ProjectionTheorems

lemma position_spec {T : Type} [Inhabited T] (p : T → Bool) :
    ∀ (l : List T) (i : ℕ), position p l = some i →
      i < l.length ∧ p (l.getD i default) = true ∧
        ∀ j < i, p (l.getD j default) = false := by
  intro l
  induction l with
  | nil => intro i h; simp [position] at h
  | cons x xs ih =>
    intro i h
    rw [position] at h
    by_cases hp : p x
    · rw [if_pos hp] at h
      obtain rfl : i = 0 := by
        simpa using h.symm
      exact ⟨by simp, by simpa using hp, by omega⟩
    · rw [if_neg hp] at h
      obtain ⟨i', hi', rfl⟩ := Option.map_eq_some'.mp h
      obtain ⟨h1, h2, h3⟩ := ih i' hi'
      refine ⟨by simpa using h1, by simpa using h2, ?_⟩
      intro j hj
      cases j with
      | zero => simpa using hp
      | succ j' => simpa using h3 j' (by omega)

lemma position_isSome_of_mem {T : Type} [DecidableEq T] (x : T) :
    ∀ (l : List T), x ∈ l → (position (fun y => y = x) l).isSome := by
  intro l
  induction l with
  | nil => intro h; simp at h
  | cons a as ih =>
    intro h
    rw [position]
    by_cases ha : a = x
    · simp [ha]
    · rw [if_neg (by simpa using ha)]
      rcases List.mem_cons.mp h with h | h
      · exact absurd h.symm ha
      · have := ih h
        rcases Option.isSome_iff_exists.mp this with ⟨i, hi⟩
        simp [hi]

lemma position_none_of_not_mem {T : Type} [DecidableEq T] (x : T) :
    ∀ (l : List T), x ∉ l → position (fun y => y = x) l = none := by
  intro l
  induction l with
  | nil => intro _; rfl
  | cons a as ih =>
    intro h
    rw [position, if_neg (by simp at h; simpa using (Ne.symm (Ne.intro h.1))), ih (by simp at h; exact h.2)]
    rfl

lemma traverseOption_length {α β : Type} (f : α → Option β) :
    ∀ (l : List α) (r : List β), traverseOption f l = some r → r.length = l.length := by
  intro l
  induction l with
  | nil => intro r h; simp [traverseOption] at h; simp [← h]
  | cons x xs ih =>
    intro r h
    rw [traverseOption] at h
    rcases hx : f x with _ | y <;> rw [hx] at h
    · exact absurd h (by simp)
    · rcases hxs : traverseOption f xs with _ | ys <;> rw [hxs] at h
      · exact absurd h (by simp)
      · simp only [Option.some_inj] at h
        subst h
        simp [ih ys hxs]

lemma traverseOption_getD {α β : Type} [Inhabited α] [Inhabited β] (f : α → Option β) :
    ∀ (l : List α) (r : List β), traverseOption f l = some r →
      ∀ i < l.length, f (l.getD i default) = some (r.getD i default) := by
  intro l
  induction l with
  | nil => intro r h i hi; simp at hi
  | cons x xs ih =>
    intro r h i hi
    rw [traverseOption] at h
    rcases hx : f x with _ | y <;> rw [hx] at h
    · exact absurd h (by simp)
    · rcases hxs : traverseOption f xs with _ | ys <;> rw [hxs] at h
      · exact absurd h (by simp)
      · simp only [Option.some_inj] at h
        subst h
        cases i with
        | zero => simpa using hx
        | succ i' =>
          simpa using ih ys hxs i' (by simpa using hi)

lemma traverseOption_isSome {α β : Type} (f : α → Option β) :
    ∀ (l : List α), (∀ x ∈ l, (f x).isSome) → (traverseOption f l).isSome := by
  intro l
  induction l with
  | nil => intro _; simp [traverseOption]
  | cons x xs ih =>
    intro h
    rw [traverseOption]
    rcases Option.isSome_iff_exists.mp (h x (by simp)) with ⟨y, hy⟩
    rcases Option.isSome_iff_exists.mp (ih (fun z hz => h z (by simp [hz]))) with ⟨ys, hys⟩
    rw [hy, hys]
    simp

lemma traverseOption_eq_none {α β : Type} (f : α → Option β) :
    ∀ (l : List α) (x : α), x ∈ l → f x = none → traverseOption f l = none := by
  intro l
  induction l with
  | nil => intro x h; simp at h
  | cons a as ih =>
    intro x h hfx
    rw [traverseOption]
    rcases List.mem_cons.mp h with rfl | h
    · rw [hfx]
    · rw [ih x h hfx]
      rcases f a with _ | y <;> rfl

/-- C10: when every variant of both populations occurs in the source
population, `project_distance_matrix` returns a matrix of shape
`(|pop1.variants|, |pop2.variants|)` whose `(i, j)` entry is
`dists[p, q]` for `p`, `q` the *first* positions of the respective
variants in the source population; when any variant is absent, the
unwrapped position lookup panics (`none`) instead of returning an
error. -/
theorem claim_C10 {T : Type} [Inhabited T] [DecidableEq T] (dists : QMatrix)
    (src : List T) (pop1 pop2 : StochasticLanguage T) :
    ((∀ v ∈ pop1.variants, v ∈ src) → (∀ v ∈ pop2.variants, v ∈ src) →
      ∃ M, project_distance_matrix dists src pop1 pop2 = some M ∧
        M.rows = pop1.variants.length ∧ M.cols = pop2.variants.length ∧
        ∀ i j, i < M.rows → j < M.cols →
          ∃ p q, p < src.length ∧ q < src.length ∧
            src.getD p default = pop1.variants.getD i default ∧
            (∀ a < p, ¬ src.getD a default = pop1.variants.getD i default) ∧
            src.getD q default = pop2.variants.getD j default ∧
            (∀ a < q, ¬ src.getD a default = pop2.variants.getD j default) ∧
            M.entry i j = dists.entry p q) ∧
    (((∃ v ∈ pop1.variants, v ∉ src) ∨ (∃ v ∈ pop2.variants, v ∉ src)) →
      project_distance_matrix dists src pop1 pop2 = none) := by
  constructor
  · intro h1 h2
    have hs1 : (traverseOption
        (fun item => position (fun x => x = item) src) pop1.variants).isSome :=
      traverseOption_isSome _ _ (fun x hx => position_isSome_of_mem x src (h1 x hx))
    have hs2 : (traverseOption
        (fun item => position (fun x => x = item) src) pop2.variants).isSome :=
      traverseOption_isSome _ _ (fun x hx => position_isSome_of_mem x src (h2 x hx))
    rcases Option.isSome_iff_exists.mp hs1 with ⟨idx1, hidx1⟩
    rcases Option.isSome_iff_exists.mp hs2 with ⟨idx2, hidx2⟩
    refine ⟨{ rows := idx1.length, cols := idx2.length,
              entry := fun i j => dists.entry (idx1.getD i 0) (idx2.getD j 0) },
      ?_, ?_, ?_, ?_⟩
    · rw [project_distance_matrix, hidx1, hidx2]
    · exact traverseOption_length _ _ _ hidx1
    · exact traverseOption_length _ _ _ hidx2
    · intro i j hi hj
      have hlen1 := traverseOption_length _ _ _ hidx1
      have hlen2 := traverseOption_length _ _ _ hidx2
      have hi' : i < idx1.length := hi
      have hj' : j < idx2.length := hj
      have hp := traverseOption_getD _ _ _ hidx1 i (by omega)
      have hq := traverseOption_getD _ _ _ hidx2 j (by omega)
      obtain ⟨hpl, hpt, hpf⟩ := position_spec _ src _ hp
      obtain ⟨hql, hqt, hqf⟩ := position_spec _ src _ hq
      refine ⟨idx1.getD i 0, idx2.getD j 0, hpl, hql, ?_, ?_, ?_, ?_, rfl⟩
      · simpa using hpt
      · intro a ha
        simpa using hpf a ha
      · simpa using hqt
      · intro a ha
        simpa using hqf a ha
  · intro h
    rcases h with ⟨v, hv, hvn⟩ | ⟨v, hv, hvn⟩
    · rw [project_distance_matrix,
        traverseOption_eq_none _ _ v hv (position_none_of_not_mem v src hvn)]
    · rw [project_distance_matrix,
        traverseOption_eq_none _ _ v hv (position_none_of_not_mem v src hvn)]
      rcases htr : traverseOption (fun item => position (fun x => x = item) src)
        pop1.variants with _ | idx1 <;> rw [htr]

/-- C10 witness: part one of the theorem applied at a concrete 2x2
matrix, source population `[5, 9]`, and singleton populations `[9]` and
`[5]`. -/
theorem claim_C10_witness :
    ∃ M, project_distance_matrix (QMatrix.mk 2 2 (fun i j => (i : ℚ) * 10 + (j : ℚ)))
        [5, 9] (StochasticLanguage.mk [9] [1]) (StochasticLanguage.mk [5] [1])
        = some M ∧
      M.rows = (StochasticLanguage.mk [9] ([1] : List ℚ)).variants.length ∧
      M.cols = (StochasticLanguage.mk [5] ([1] : List ℚ)).variants.length ∧
      ∀ i j, i < M.rows → j < M.cols →
        ∃ p q, p < ([5, 9] : List ℕ).length ∧ q < ([5, 9] : List ℕ).length ∧
          ([5, 9] : List ℕ).getD p default
            = (StochasticLanguage.mk [9] ([1] : List ℚ)).variants.getD i default ∧
          (∀ a < p, ¬ ([5, 9] : List ℕ).getD a default
            = (StochasticLanguage.mk [9] ([1] : List ℚ)).variants.getD i default) ∧
          ([5, 9] : List ℕ).getD q default
            = (StochasticLanguage.mk [5] ([1] : List ℚ)).variants.getD j default ∧
          (∀ a < q, ¬ ([5, 9] : List ℕ).getD a default
            = (StochasticLanguage.mk [5] ([1] : List ℚ)).variants.getD j default) ∧
          M.entry i j
            = (QMatrix.mk 2 2 (fun i j => (i : ℚ) * 10 + (j : ℚ))).entry p q :=
  (claim_C10 (QMatrix.mk 2 2 (fun i j => (i : ℚ) * 10 + (j : ℚ))) [5, 9]
    (StochasticLanguage.mk [9] [1]) (StochasticLanguage.mk [5] [1])).1
    (by decide) (by decide)

end ProjectionTheorems

/-! ## Properties of the k-means binner -/

section KMeansTheorems

lemma minByFold_enum_spec :
    ∀ (cs : List ℚ) (i : ℕ) (acc : ℕ × ℚ),
      ((minByFold acc (enumerate i cs)).2 ≤ acc.2 ∧
        ∀ k < cs.length, (minByFold acc (enumerate i cs)).2 ≤ cs.getD k 0) ∧
      (minByFold acc (enumerate i cs) = acc ∨
        ∃ k < cs.length, minByFold acc (enumerate i cs) = (i + k, cs.getD k 0) ∧
          (minByFold acc (enumerate i cs)).2 < acc.2 ∧
          ∀ a < k, (minByFold acc (enumerate i cs)).2 < cs.getD a 0) := by
  intro cs
  induction cs with
  | nil =>
    intro i acc
    refine ⟨⟨le_rfl, ?_⟩, Or.inl rfl⟩
    intro k hk
    simp at hk
  | cons c rest ih =>
    intro i acc
    have hstep : minByFold acc (enumerate i (c :: rest))
        = minByFold (if c < acc.2 then (i, c) else acc) (enumerate (i + 1) rest) := by
      rw [enumerate, minByFold, List.foldl_cons]
      rfl
    by_cases hc : c < acc.2
    · rw [if_pos hc] at hstep
      obtain ⟨⟨hle, hmin⟩, hdisj⟩ := ih (i + 1) ((i, c))
      rw [hstep]
      constructor
      · constructor
        · exact le_trans hle (le_of_lt hc)
        · intro k hk
          cases k with
          | zero => simpa using hle
          | succ k' => simpa using hmin k' (by simpa using hk)
      · rcases hdisj with heq | ⟨k', hk', heq, hlt, hfirst⟩
        · refine Or.inr ⟨0, by simp, ?_, ?_, by omega⟩
          · simpa using heq
          · rw [heq]; simpa using hc
        · refine Or.inr ⟨k' + 1, by simpa using hk', ?_, ?_, ?_⟩
          · rw [heq]
            simp only [List.getD_cons_succ]
            congr 1
            omega
          · exact lt_trans hlt hc
          · intro a ha
            cases a with
            | zero => simpa using hlt
            | succ a' => simpa using hfirst a' (by omega)
    · rw [if_neg hc] at hstep
      obtain ⟨⟨hle, hmin⟩, hdisj⟩ := ih (i + 1) acc
      rw [hstep]
      constructor
      · constructor
        · exact hle
        · intro k hk
          cases k with
          | zero =>
            simp only [List.getD_cons_zero]
            exact le_trans hle (not_lt.mp hc)
          | succ k' => simpa using hmin k' (by simpa using hk)
      · rcases hdisj with heq | ⟨k', hk', heq, hlt, hfirst⟩
        · exact Or.inl heq
        · refine Or.inr ⟨k' + 1, by simpa using hk', ?_, hlt, ?_⟩
          · rw [heq]
            simp only [List.getD_cons_succ]
            congr 1
            omega
          · intro a ha
            cases a with
            | zero =>
              simp only [List.getD_cons_zero]
              exact lt_of_lt_of_le hlt (not_lt.mp hc)
            | succ a' => simpa using hfirst a' (by omega)

lemma getD_map_abs (x : ℚ) (l : List ℚ) (k : ℕ) (hk : k < l.length) :
    (l.map (fun c => |x - c|)).getD k 0 = |x - l.getD k 0| := by
  rw [List.getD_eq_getElem _ _ (by simpa using hk), List.getD_eq_getElem _ _ hk,
    List.getElem_map]

lemma bin_spec (b : KMeansBinner) (hne : b.centroids ≠ []) (x : ℚ) :
    ∃ idx, b.bin x = some idx ∧ idx < b.centroids.length ∧
      (∀ k < b.centroids.length,
        |x - b.centroids.getD idx 0| ≤ |x - b.centroids.getD k 0|) ∧
      (∀ k < idx, |x - b.centroids.getD idx 0| < |x - b.centroids.getD k 0|) := by
  obtain ⟨c0, rest, hcs⟩ := List.exists_cons_of_ne_nil hne
  have hbin : b.bin x
      = some (minByFold (0, |x - c0|) (enumerate 1 (rest.map (fun c => |x - c|)))).1 := by
    rw [KMeansBinner.bin, hcs, List.map_cons, enumerate]
  obtain ⟨⟨hle, hmin⟩, hdisj⟩ :=
    minByFold_enum_spec (rest.map (fun c => |x - c|)) 1 ((0, |x - c0|))
  set R := minByFold (0, |x - c0|) (enumerate 1 (rest.map (fun c => |x - c|))) with hR
  have hval : R.2 = |x - b.centroids.getD R.1 0| := by
    rcases hdisj with heq | ⟨k', hk', heq, _, _⟩
    · rw [heq, hcs]
      simp
    · rw [heq, hcs]
      simp only [List.getD_cons_succ, List.length_map] at *
      rw [getD_map_abs x rest k' (by simpa using hk')]
      simp [Nat.add_comm 1 k']
  refine ⟨R.1, hbin, ?_, ?_, ?_⟩
  · rcases hdisj with heq | ⟨k', hk', heq, _, _⟩
    · rw [heq, hcs]
      simp
    · rw [heq, hcs]
      simp only [List.length_map] at hk'
      simp [Nat.add_comm 1 k']
      omega
  · intro k hk
    rw [← hval]
    rw [hcs] at hk
    cases k with
    | zero =>
      rw [hcs]
      simpa using hle
    | succ k' =>
      rw [hcs]
      simp only [List.getD_cons_succ]
      rw [← getD_map_abs x rest k' (by simpa using hk)]
      exact hmin k' (by simpa using hk)
  · intro k hk
    rw [← hval]
    rcases hdisj with heq | ⟨k', hk', heq, hlt, hfirst⟩
    · rw [heq] at hk
      simp at hk
    · rw [heq] at hk
      simp only at hk
      cases k with
      | zero =>
        rw [hcs]
        simpa using hlt
      | succ a' =>
        rw [hcs]
        simp only [List.getD_cons_succ]
        rw [← getD_map_abs x rest a' (by simp only [List.length_map] at hk' ⊢; omega)]
        exact hfirst a' (by omega)

lemma abs_quadrangle (a b u v : ℚ) (hab : a ≤ b) (huv : u ≤ v) :
    |a - u| + |b - v| ≤ |a - v| + |b - u| := by
  rcases abs_cases (a - u) with ⟨h1, h1s⟩ | ⟨h1, h1s⟩ <;>
    rcases abs_cases (b - v) with ⟨h2, h2s⟩ | ⟨h2, h2s⟩ <;>
      rcases abs_cases (a - v) with ⟨h3, h3s⟩ | ⟨h3, h3s⟩ <;>
        rcases abs_cases (b - u) with ⟨h4, h4s⟩ | ⟨h4, h4s⟩ <;>
          rw [h1, h2, h3, h4] <;> linarith

lemma sorted_getD_mono (l : List ℚ) (hs : List.Sorted (· ≤ ·) l) (i j : ℕ)
    (hij : i ≤ j) (hj : j < l.length) : l.getD i 0 ≤ l.getD j 0 := by
  rcases eq_or_lt_of_le hij with rfl | hlt
  · exact le_rfl
  · rw [List.getD_eq_getElem _ _ (by omega), List.getD_eq_getElem _ _ hj]
    exact List.pairwise_iff_getElem.mp hs i j (by omega) hj hlt

/-- C9: for every trained `KMeansBinner` (whose centroids are sorted
ascending at construction), `bin` assigns a value the index of its
nearest centroid, ties broken toward the smallest index, and `bin` is
monotone across values whose nearest centroid is unique. -/
theorem claim_C9 (raw : List ℚ) (hraw : raw ≠ []) :
    (∀ x : ℚ, ∃ idx, (KMeansBinner.new raw).bin x = some idx ∧
      idx < (KMeansBinner.new raw).centroids.length ∧
      (∀ k < (KMeansBinner.new raw).centroids.length,
        |x - (KMeansBinner.new raw).centroids.getD idx 0|
          ≤ |x - (KMeansBinner.new raw).centroids.getD k 0|) ∧
      (∀ k < idx, |x - (KMeansBinner.new raw).centroids.getD idx 0|
          < |x - (KMeansBinner.new raw).centroids.getD k 0|)) ∧
    (∀ x y : ℚ, ∀ ix iy : ℕ, x < y →
      (KMeansBinner.new raw).bin x = some ix →
      (KMeansBinner.new raw).bin y = some iy →
      (∀ k < (KMeansBinner.new raw).centroids.length, k ≠ ix →
        |x - (KMeansBinner.new raw).centroids.getD ix 0|
          < |x - (KMeansBinner.new raw).centroids.getD k 0|) →
      (∀ k < (KMeansBinner.new raw).centroids.length, k ≠ iy →
        |y - (KMeansBinner.new raw).centroids.getD iy 0|
          < |y - (KMeansBinner.new raw).centroids.getD k 0|) →
      ix ≤ iy) := by
  have hne : (KMeansBinner.new raw).centroids ≠ [] := by
    have : (KMeansBinner.new raw).centroids.length = raw.length :=
      (List.perm_insertionSort _ raw).length_eq
    intro hcon
    rw [hcon] at this
    exact hraw (List.length_eq_zero.mp this.symm)
  constructor
  · intro x
    exact bin_spec (KMeansBinner.new raw) hne x
  · intro x y ix iy hxy hbx hby hux huy
    by_contra hcon
    push_neg at hcon
    obtain ⟨idx, hbe, hidxlen, _, _⟩ := bin_spec (KMeansBinner.new raw) hne x
    rw [hbx] at hbe
    have hixlen : ix < (KMeansBinner.new raw).centroids.length := by
      obtain rfl : idx = ix := (Option.some_inj.mp hbe).symm
      exact hidxlen
    have hiylen : iy < (KMeansBinner.new raw).centroids.length := by omega
    have hsorted : List.Sorted (· ≤ ·) (KMeansBinner.new raw).centroids :=
      List.sorted_insertionSort _ raw
    have hc : (KMeansBinner.new raw).centroids.getD iy 0
        ≤ (KMeansBinner.new raw).centroids.getD ix 0 :=
      sorted_getD_mono _ hsorted iy ix (by omega) hixlen
    have h1 : |x - (KMeansBinner.new raw).centroids.getD ix 0|
        < |x - (KMeansBinner.new raw).centroids.getD iy 0| :=
      hux iy hiylen (by omega)
    have h2 : |y - (KMeansBinner.new raw).centroids.getD iy 0|
        < |y - (KMeansBinner.new raw).centroids.getD ix 0| :=
      huy ix hixlen (by omega)
    have h3 := abs_quadrangle x y ((KMeansBinner.new raw).centroids.getD iy 0)
      ((KMeansBinner.new raw).centroids.getD ix 0) (le_of_lt hxy) hc
    linarith

/-- C9 witness: the theorem applied at the concrete raw centroid list
`[10, 0]` (sorted to `[0, 10]` at construction). -/
theorem claim_C9_witness :
    (∀ x : ℚ, ∃ idx, (KMeansBinner.new [10, 0]).bin x = some idx ∧
      idx < (KMeansBinner.new [10, 0]).centroids.length ∧
      (∀ k < (KMeansBinner.new [10, 0]).centroids.length,
        |x - (KMeansBinner.new [10, 0]).centroids.getD idx 0|
          ≤ |x - (KMeansBinner.new [10, 0]).centroids.getD k 0|) ∧
      (∀ k < idx, |x - (KMeansBinner.new [10, 0]).centroids.getD idx 0|
          < |x - (KMeansBinner.new [10, 0]).centroids.getD k 0|)) ∧
    (∀ x y : ℚ, ∀ ix iy : ℕ, x < y →
      (KMeansBinner.new [10, 0]).bin x = some ix →
      (KMeansBinner.new [10, 0]).bin y = some iy →
      (∀ k < (KMeansBinner.new [10, 0]).centroids.length, k ≠ ix →
        |x - (KMeansBinner.new [10, 0]).centroids.getD ix 0|
          < |x - (KMeansBinner.new [10, 0]).centroids.getD k 0|) →
      (∀ k < (KMeansBinner.new [10, 0]).centroids.length, k ≠ iy →
        |y - (KMeansBinner.new [10, 0]).centroids.getD iy 0|
          < |y - (KMeansBinner.new [10, 0]).centroids.getD k 0|) →
      ix ≤ iy) :=
  claim_C9 [10, 0] (by simp)

end KMeansTheorems

/-! ## Error propagation and panics in the comparison pipelines -/

section ErrorTheorems

/-- C2 counterexample: with a solver that reports max-iterations-reached,
`compare` on successfully extracted representations does **not** return
the failure as a typed `Err` value: `compute_emd` unwraps the solver
result, so the call panics (modelled as `none`). -/
theorem claim_C2_counterexample :
    BootstrapTestComparator.compare (fun _ _ : ℕ => (0 : ℚ))
      (fun _ _ _ => .error SolverError.maxIterationsReached)
      (.ok ([0], [1])) 1 1 (fun _ => [0]) = none := rfl

/-- C2 (amended): attribute errors from representation extraction are
returned to the caller as the `Err` variant of `compare`'s typed result,
for both comparators; EMD solver failures (infeasible, unbounded,
max-iterations-reached) are **not** returned — `compute_emd` unwraps the
solver result, so any solver failure panics instead of propagating as a
value. -/
theorem claim_C2 {T : Type} [Inhabited T] [LinearOrder T] [DecidableEq T] :
    (∀ (cost : T → T → ℚ) (solver : Solver) (e : AttributeError)
        (resample_size distribution_size : ℕ) (sample_draws : ℕ → List ℕ),
      BootstrapTestComparator.compare cost solver (.error e) resample_size
        distribution_size sample_draws = some (.error e)) ∧
    (∀ (cost : T → T → ℚ) (solver : Solver) (e : AttributeError)
        (distribution_size : ℕ) (shuffles : ℕ → List ℕ),
      PermutationTestComparator.compare cost solver (.error e)
        distribution_size shuffles = some (.error e)) ∧
    (∀ (cost : T → T → ℚ) (err : SolverError) (b1 b2 : List T)
        (resample_size distribution_size : ℕ) (sample_draws : ℕ → List ℕ),
      BootstrapTestComparator.compare cost (fun _ _ _ => .error err)
        (.ok (b1, b2)) resample_size distribution_size sample_draws = none) ∧
    (∀ (cost : T → T → ℚ) (err : SolverError) (b1 b2 : List T)
        (distribution_size : ℕ) (shuffles : ℕ → List ℕ),
      PermutationTestComparator.compare cost (fun _ _ _ => .error err)
        (.ok (b1, b2)) distribution_size shuffles = none) := by
  refine ⟨fun _ _ _ _ _ _ => rfl, fun _ _ _ _ _ => rfl, fun _ _ _ _ _ _ _ => rfl, ?_⟩
  intro cost err b1 b2 distribution_size shuffles
  simp only [PermutationTestComparator.compare]
  split
  · rfl
  · rfl

end ErrorTheorems

/-! ## The permutation-iteration frequency bug (claim C1) -/

section PermutationFrequencyBug

/-- C1: in the permutation-test resampling iteration the first group's
sample language is a probability distribution, but the second group's is
not: the source divides the second group's counts by `behavior_1.len()`
(a copy-paste of the first closure), so its frequencies sum to
`|log2| / |log1|`.  Concretely, with `behavior_1 = ["a"]`,
`behavior_2 = ["b", "b"]` (pooled variants `["a", "b"]`, so the pooled
index-to-variant map is `[0, 1, 1]`) and the identity shuffle
`[0, 1, 2]`, the first group's frequencies sum to `1` but the second
group's sum to `2`. -/
theorem claim_C1_code_bug :
    (translate_sample [0, 1, 1] 1 (List.take 1 [0, 1, 2])).frequencies.sum = 1 ∧
    (translate_sample [0, 1, 1] 1 (List.drop 1 [0, 1, 2])).frequencies.sum = 2 := by
  constructor <;>
    simp [translate_sample, List.insertionSort, List.orderedInsert]

end PermutationFrequencyBug

/-! ## The p-value computation (claim C7) -/

section PvalueTheorems

lemma pvalue_of_nonneg (emds : List ℚ) (o : ℚ) (ds : ℕ) :
    0 ≤ pvalue_of emds o ds := by
  unfold pvalue_of
  positivity

lemma pvalue_of_le_one (emds : List ℚ) (o : ℚ) (ds : ℕ)
    (hlen : emds.length = ds) (hds : 1 ≤ ds) : pvalue_of emds o ds ≤ 1 := by
  unfold pvalue_of
  rw [div_le_one (by exact_mod_cast hds)]
  exact_mod_cast hlen ▸ List.length_filter_le _ emds

/-- C7: for both comparators, every successfully returned result has
`pvalue` equal to the number of resampled EMDs strictly greater than the
observed EMD divided by `distribution_size`, exactly `distribution_size`
resampled EMDs, and a `pvalue` in `[0, 1]`; moreover the p-value
computation is invariant under permuting the resampled EMD list. -/
theorem claim_C7 {T : Type} [Inhabited T] [LinearOrder T] [DecidableEq T] :
    (∀ (cost : T → T → ℚ) (solver : Solver)
        (extracted : AttributeResult (List T × List T))
        (resample_size distribution_size : ℕ) (sample_draws : ℕ → List ℕ)
        (r : BootstrapTestComparisonResult), 1 ≤ distribution_size →
      BootstrapTestComparator.compare cost solver extracted resample_size
        distribution_size sample_draws = some (.ok r) →
      r.pvalue = ((r.bootstrap_emds.filter
            (fun emd => decide (r.logs_emd < emd))).length : ℚ)
          / (distribution_size : ℚ) ∧
        r.bootstrap_emds.length = distribution_size ∧
        0 ≤ r.pvalue ∧ r.pvalue ≤ 1) ∧
    (∀ (cost : T → T → ℚ) (solver : Solver)
        (extracted : AttributeResult (List T × List T))
        (distribution_size : ℕ) (shuffles : ℕ → List ℕ)
        (r : PermutationTestComparisonResult), 1 ≤ distribution_size →
      PermutationTestComparator.compare cost solver extracted
        distribution_size shuffles = some (.ok r) →
      r.pvalue = ((r.permutation_emds.filter
            (fun emd => decide (r.logs_emd < emd))).length : ℚ)
          / (distribution_size : ℚ) ∧
        r.permutation_emds.length = distribution_size ∧
        0 ≤ r.pvalue ∧ r.pvalue ≤ 1) ∧
    (∀ (emds emds2 : List ℚ) (o : ℚ) (ds : ℕ), emds.Perm emds2 →
      pvalue_of emds o ds = pvalue_of emds2 o ds) := by
  refine ⟨?_, ?_, ?_⟩
  · intro cost solver extracted resample_size distribution_size sample_draws r
      hds hc
    simp only [BootstrapTestComparator.compare, bootstrap_emd_population] at hc
    split at hc
    · simp at hc
    · split at hc
      · simp at hc
      · split at hc
        · simp at hc
        · rename_i emds hemds
          simp only [Option.some_inj, Except.ok.injEq] at hc
          subst hc
          refine ⟨rfl, ?_, pvalue_of_nonneg _ _ _, ?_⟩
          · rw [traverseOption_length _ _ _ hemds, List.length_range]
          · exact pvalue_of_le_one _ _ _
              (by rw [traverseOption_length _ _ _ hemds, List.length_range]) hds
  · intro cost solver extracted distribution_size shuffles r hds hc
    simp only [PermutationTestComparator.compare] at hc
    split at hc
    · simp at hc
    · split at hc
      · simp at hc
      · split at hc
        · simp at hc
        · split at hc
          · simp at hc
          · rename_i emds hemds
            simp only [Option.some_inj, Except.ok.injEq] at hc
            subst hc
            simp only [compute_permutation_test_distribution] at hemds
            split at hemds
            · simp at hemds
            · refine ⟨rfl, ?_, pvalue_of_nonneg _ _ _, ?_⟩
              · rw [traverseOption_length _ _ _ hemds, List.length_range]
              · exact pvalue_of_le_one _ _ _
                  (by rw [traverseOption_length _ _ _ hemds, List.length_range]) hds
  · intro emds emds2 o ds hperm
    unfold pvalue_of
    rw [(hperm.filter _).length_eq]

lemma bootstrap_compare_concrete :
    BootstrapTestComparator.compare (fun _ _ : ℕ => (0 : ℚ))
      (fun _ _ _ => Except.ok (QMatrix.mk 0 0 (fun _ _ => 0)))
      (.ok ([0], [0])) 1 1 (fun _ => [0])
      = some (.ok (BootstrapTestComparisonResult.mk 0 [0] 0)) := by
  simp [BootstrapTestComparator.compare, bootstrap_emd_population, compute_emd,
    matrixDotSum, compute_distance_matrix, StochasticLanguage.from_items,
    traverseOption, pvalue_of, List.insertionSort, List.orderedInsert,
    List.range_succ]

lemma permutation_compare_concrete :
    PermutationTestComparator.compare (fun _ _ : ℕ => (0 : ℚ))
      (fun _ _ _ => Except.ok (QMatrix.mk 0 0 (fun _ _ => 0)))
      (.ok ([0], [0])) 1 (fun _ => [0, 1])
      = some (.ok (PermutationTestComparisonResult.mk 0 [0] 0)) := by
  simp [PermutationTestComparator.compare, project_distance_matrix, position,
    compute_permutation_test_distribution, translate_sample, compute_emd,
    matrixDotSum, StochasticLanguage.from_items, traverseOption, pvalue_of,
    List.insertionSort, List.orderedInsert, List.range_succ]

/-- C7 witness: the theorem applied at concrete runs of both comparators
(one variant, one iteration, an always-feasible solver) and at the
concrete permutation `[1, 2] ~ [2, 1]` of an EMD list. -/
theorem claim_C7_witness :
    ((BootstrapTestComparisonResult.mk 0 [0] 0).pvalue
        = (((BootstrapTestComparisonResult.mk 0 [0] 0).bootstrap_emds.filter
              (fun emd => decide
                ((BootstrapTestComparisonResult.mk 0 [0] 0).logs_emd < emd))).length : ℚ)
            / ((1 : ℕ) : ℚ) ∧
      (BootstrapTestComparisonResult.mk 0 [0] 0).bootstrap_emds.length = 1 ∧
      0 ≤ (BootstrapTestComparisonResult.mk 0 [0] 0).pvalue ∧
      (BootstrapTestComparisonResult.mk 0 [0] 0).pvalue ≤ 1) ∧
    ((PermutationTestComparisonResult.mk 0 [0] 0).pvalue
        = (((PermutationTestComparisonResult.mk 0 [0] 0).permutation_emds.filter
              (fun emd => decide
                ((PermutationTestComparisonResult.mk 0 [0] 0).logs_emd < emd))).length : ℚ)
            / ((1 : ℕ) : ℚ) ∧
      (PermutationTestComparisonResult.mk 0 [0] 0).permutation_emds.length = 1 ∧
      0 ≤ (PermutationTestComparisonResult.mk 0 [0] 0).pvalue ∧
      (PermutationTestComparisonResult.mk 0 [0] 0).pvalue ≤ 1) ∧
    pvalue_of [1, 2] 0 2 = pvalue_of [2, 1] 0 2 :=
  ⟨(claim_C7 (T := ℕ)).1 (fun _ _ => 0)
      (fun _ _ _ => Except.ok (QMatrix.mk 0 0 (fun _ _ => 0)))
      (.ok ([0], [0])) 1 1 (fun _ => [0])
      (BootstrapTestComparisonResult.mk 0 [0] 0) le_rfl
      bootstrap_compare_concrete,
    (claim_C7 (T := ℕ)).2.1 (fun _ _ => 0)
      (fun _ _ _ => Except.ok (QMatrix.mk 0 0 (fun _ _ => 0)))
      (.ok ([0], [0])) 1 (fun _ => [0, 1])
      (PermutationTestComparisonResult.mk 0 [0] 0) le_rfl
      permutation_compare_concrete,
    (claim_C7 (T := ℕ)).2.2 [1, 2] [2, 1] 0 2 (by decide)⟩

end PvalueTheorems

end PComp
